import Mathlib

/-
Shallow embedding of the data cleaning and transformation pipeline of
src/project/data_ai_automator.py (a pandas based script).

Modelling conventions, fixed once for the whole file:
* A pandas cell is one of a rational number, a string, a timestamp
  (an integer, standing for the int64 nanosecond value pandas uses),
  or Missing (NaN / NaT / None).
* A pandas column carries a dtype.  The model tracks the three dtype
  classes the script branches on: numeric (int64 / float64), object,
  and datetime64.  The predicate pd.api.types.is_numeric_dtype of the
  source corresponds to the dtype being numeric.
* A DataFrame is a Table: a list of column names, a parallel list of
  column dtypes, and a list of rows, each row a list of cells.  The
  well-formedness predicate Table.WF states the lists are aligned.
* Machine floats of the source are modelled as rationals.  The claims
  under study do not depend on rounding.
* The external string parsers that pandas delegates to (float parsing
  inside pd.to_numeric, date parsing inside pd.to_datetime) are
  modelled by concrete executable parsers below; the claims under
  study depend only on the fallback behaviour on failure (coerce to
  Missing), never on exactly which strings parse.
-/

namespace DataAI

/-- Dtype class of a pandas column, as far as the script inspects it. -/
inductive Dtype
  | numeric
  | object
  | datetime
deriving DecidableEq

/-- A single cell value of a table. -/
inductive Cell
  | num (q : ℚ)
  | text (s : String)
  | timestamp (t : ℤ)
  | missing
deriving DecidableEq

/-- True exactly on the Missing cell (pandas isna). -/
def Cell.isMissing : Cell → Bool
  | .missing => true
  | _ => false

/-- Rank used to compare cells of different constructors.  Within one
column the cells are homogeneous, where the payload orders below agree
with the ascending order pandas uses when sorting mode results and
group keys; the cross-constructor rank is a determinisation. -/
def Cell.rank : Cell → ℕ
  | .num _ => 0
  | .text _ => 1
  | .timestamp _ => 2
  | .missing => 3

/-- Lexicographic comparison of strings as lists of characters, the
order Python uses on strings (by code point). -/
def strLeB : List Char → List Char → Bool
  | [], _ => true
  | _ :: _, [] => false
  | a :: as, b :: bs => if a < b then true else if b < a then false else strLeB as bs

/-- Total comparison on cells: payload order inside one constructor,
rank order across constructors. -/
def cellLe (a b : Cell) : Bool :=
  match a, b with
  | .num x, .num y => decide (x ≤ y)
  | .text x, .text y => strLeB x.toList y.toList
  | .timestamp x, .timestamp y => decide (x ≤ y)
  | _, _ => decide (a.rank ≤ b.rank)

/-- Strict version of cellLe. -/
def cellLt (a b : Cell) : Bool :=
  cellLe a b && !(cellLe b a)

/-- In-memory table: column names, column dtypes, and rows of cells. -/
structure Table where
  names : List String
  dtypes : List Dtype
  rows : List (List Cell)
deriving DecidableEq

/-- Alignment invariant of a table: one dtype per name and one cell
per name in every row. -/
def Table.WF (t : Table) : Prop :=
  t.dtypes.length = t.names.length ∧ ∀ r ∈ t.rows, r.length = t.names.length

instance (t : Table) : Decidable t.WF := by
  unfold Table.WF
  infer_instance

/-- Mutable audit record of the pipeline (dataclass ProcessingSummary
of the source). -/
structure ProcessingSummary where
  rows_before : ℕ
  rows_after_cleaning : ℕ
  rows_after_transform : ℕ
  removed_duplicates : ℕ
  filled_missing_numeric : ℕ
  filled_missing_text : ℕ
  removed_invalid_rows : ℕ
deriving DecidableEq

/-- Cells of column j, read off the rows (pandas df[col]). -/
def colCells (j : ℕ) (rows : List (List Cell)) : List Cell :=
  rows.map (fun r => r.getD j .missing)

/-- Helper for keep-first deduplication: drops the elements already in
seen, keeping first occurrences in order. -/
def dedupGo [DecidableEq α] (seen : List α) : List α → List α
  | [] => []
  | x :: xs => if x ∈ seen then dedupGo seen xs else x :: dedupGo (x :: seen) xs

/-- Keep-first deduplication, the semantics of DataFrame.drop_duplicates
(keep equals first); pandas compares NaN equal to NaN there, as does
the decidable equality of Cell on missing. -/
def dedupKeepFirst [DecidableEq α] (l : List α) : List α :=
  dedupGo [] l

/-- Number of Missing cells in a list of cells (pandas isna().sum()). -/
def missingCount (cells : List Cell) : ℕ :=
  cells.countP Cell.isMissing

/-- Rational payloads of the non-missing numeric cells of a column. -/
def numsOf (cells : List Cell) : List ℚ :=
  cells.filterMap (fun c => match c with | .num q => some q | _ => none)

/-- Median of a list of rationals, as pandas computes it: sort, take
the middle element, or the mean of the two middle elements; undefined
(none, pandas NaN) on the empty list. -/
def median (l : List ℚ) : Option ℚ :=
  let s := List.insertionSort (· ≤ ·) l
  if s.length = 0 then none
  else if s.length % 2 = 1 then some (s.getD (s.length / 2) 0)
  else some ((s.getD (s.length / 2 - 1) 0 + s.getD (s.length / 2) 0) / 2)

/-- Number of occurrences of the value v among the cells. -/
def countCell (cells : List Cell) (v : Cell) : ℕ :=
  cells.countP (fun c => c = v)

/-- Non-missing cells of a column, in order. -/
def nonMissing (cells : List Cell) : List Cell :=
  cells.filter (fun c => !c.isMissing)

/-- Characterisation of the value Series.mode(dropna=True).iloc[0]
returns: a non-missing value of the column, of maximal occurrence
count, and least in the cellLe order among the values of maximal
count. -/
def IsLeastMode (cells : List Cell) (m : Cell) : Prop :=
  m ∈ nonMissing cells ∧
  (∀ v ∈ nonMissing cells, countCell (nonMissing cells) v ≤ countCell (nonMissing cells) m) ∧
  (∀ v ∈ nonMissing cells,
    countCell (nonMissing cells) v = countCell (nonMissing cells) m → cellLe m v = true)

/-- Fold selecting, among the candidate values, one of maximal count,
and among those of maximal count the least in the cellLe order. -/
def modeBest (nm : List Cell) : List Cell → Cell → Cell
  | [], best => best
  | c :: cs, best =>
      modeBest nm cs
        (if countCell nm best < countCell nm c ∨
            (countCell nm c = countCell nm best ∧ cellLt c best = true)
         then c else best)

/-- Mode of a column as Series.mode(dropna=True).iloc[0] computes it:
pandas returns the values of maximal count sorted in ascending order,
and the script takes the first, hence the least, of them; none when
every cell is missing (empty mode). -/
def modeCell (cells : List Cell) : Option Cell :=
  match dedupKeepFirst (nonMissing cells) with
  | [] => none
  | c :: cs => some (modeBest (nonMissing cells) cs c)

/-- Numeric value of a list of decimal digit characters. -/
def natVal (l : List Char) : ℕ :=
  l.foldl (fun a c => 10 * a + (c.toNat - 48)) 0

/-- Strip of surrounding whitespace on a character list (Python
str.strip with the default argument). -/
def trimChars (l : List Char) : List Char :=
  ((l.dropWhile Char.isWhitespace).reverse.dropWhile Char.isWhitespace).reverse

/-- Lower-casing of a string, character by character (Python
str.lower, restricted to the ASCII range). -/
def lowerStr (s : String) : String :=
  String.mk (s.toList.map Char.toLower)

/-- Executable model of the numeric string parser behind pd.to_numeric:
an optional sign, then decimal digits with an optional fractional part.
The claims depend only on failure mapping to none, not on the exact
accepted language (exponent forms are left out). -/
def parseNum (s : String) : Option ℚ :=
  let l := trimChars s.toList
  let sl : ℚ × List Char :=
    match l with
    | c :: rest => if c = '-' then (-1, rest) else if c = '+' then (1, rest) else (1, l)
    | [] => (1, [])
  let ip := sl.2.takeWhile Char.isDigit
  let rest := sl.2.drop ip.length
  let fp : Option (List Char) :=
    match rest with
    | [] => some []
    | c :: fr => if c = '.' ∧ fr.all Char.isDigit then some fr else none
  match fp with
  | none => none
  | some fr =>
    if ip = [] ∧ fr = [] then none
    else some (sl.1 * ((natVal ip : ℚ) + (natVal fr : ℚ) / ((10 : ℚ) ^ fr.length)))

/-- Executable model of the external date parser behind pd.to_datetime:
a representative accepted shape (YYYY-MM-DD, encoded as a single
integer).  The claims depend only on failure mapping to Missing, not
on the accepted language. -/
def parseDate (s : String) : Option ℤ :=
  match s.toList with
  | [a, b, c, d, '-', e, f, '-', g, h] =>
    if ([a, b, c, d, e, f, g, h].all Char.isDigit) = true
    then some (natVal [a, b, c, d, e, f, g, h]) else none
  | _ => none

/-- Elementwise pd.to_datetime(cell, errors="coerce"): timestamps stay,
numbers are read as epoch nanoseconds, strings are parsed (failure
gives Missing, i.e. NaT), Missing stays Missing. -/
def toDatetimeCell : Cell → Cell
  | .timestamp t => .timestamp t
  | .num q => .timestamp (Rat.floor q)
  | .text s => match parseDate s with | some t => .timestamp t | none => .missing
  | .missing => .missing

/-- Elementwise pd.to_numeric(cell, errors="coerce"): numbers stay,
strings are parsed (failure gives Missing, i.e. NaN), timestamps give
their int64 nanosecond view, Missing stays Missing. -/
def toNumericCell : Cell → Cell
  | .num q => .num q
  | .text s => match parseNum s with | some q => .num q | none => .missing
  | .timestamp t => .num (t : ℚ)
  | .missing => .missing

/-- Python str() of a cell, as used by astype(str).  The script only
reaches this on object columns, which at that point hold strings (and,
faithfully to pandas, a Missing cell would stringify to "nan").  The
claims never depend on the rendering of numeric payloads. -/
def cellStr : Cell → String
  | .text s => s
  | .num q => toString q
  | .timestamp t => toString t
  | .missing => "nan"

/-- Elementwise astype(str).str.lower() of the source. -/
def lowerCell (c : Cell) : Cell :=
  .text (lowerStr (cellStr c))

/-- Boolean substring test (Python keyword in name). -/
def containsSub (s pat : String) : Bool :=
  decide (pat.toList <:+: s.toList)

/-- Column-name test of the standardisation step: any of the
substrings date, time, timestamp inside the lower-cased name. -/
def dateKeyword (name : String) : Bool :=
  containsSub (lowerStr name) "date" || containsSub (lowerStr name) "time" ||
    containsSub (lowerStr name) "timestamp"

/-- Single pass that replaces every maximal run of characters matched
by p with the single character rep; inRun records whether the previous
character was part of such a run. -/
def squashGo (p : Char → Bool) (rep : Char) : Bool → List Char → List Char
  | _, [] => []
  | inRun, c :: cs =>
      if p c then
        if inRun then squashGo p rep true cs else rep :: squashGo p rep true cs
      else c :: squashGo p rep false cs

/-- Replace every run of characters matched by p with rep (the regex
substitutions of to_snake_case). -/
def squashRuns (p : Char → Bool) (rep : Char) (l : List Char) : List Char :=
  squashGo p rep false l

/-- Character class of the first regex of to_snake_case: whitespace or
hyphen. -/
def isSpaceHyphen (c : Char) : Bool :=
  c.isWhitespace || c = '-'

/-- Character class kept by the second regex of to_snake_case. -/
def isWordChar (c : Char) : Bool :=
  c.isDigit || c.isAlpha || c = '_'

/-- Model of to_snake_case of the source: strip surrounding
whitespace, replace runs of whitespace or hyphens by one underscore,
drop every character outside the word class, collapse runs of
underscores, lower-case. -/
def toSnakeCase (name : String) : String :=
  let l := trimChars name.toList
  let l := squashRuns isSpaceHyphen '_' l
  let l := l.filter isWordChar
  let l := squashRuns (fun c => c = '_') '_' l
  String.mk (l.map Char.toLower)

/-! Cleaning stage (clean_dataset of the source, lines 106-179).  The
per-column loops of the source compute each decision (median, mode,
coercion threshold) from the cells of the column being updated only,
and each update touches that column only, so the loops are modelled by
reading every column of the incoming table and rebuilding the rows;
the spec notes this per-column independence explicitly. -/

/-- Deduplication step, drop_duplicates keeping first occurrences. -/
def dedupStep (t : Table) : Table :=
  { t with rows := dedupKeepFirst t.rows }

/-- Fill value of one column in the imputation loop, none when the
loop leaves the column unchanged: either the column has no Missing
cell (isna().any() is false), or the column is numeric with an
undefined median (an all-Missing numeric column, where fillna with NaN
changes nothing).  A non-numeric column with Missing cells is always
filled, with the mode, or with the literal "unknown" when the mode is
empty. -/
def colFill (dt : Dtype) (cells : List Cell) : Option Cell :=
  if missingCount cells = 0 then none
  else if dt = .numeric then (median (numsOf cells)).map Cell.num
  else some ((modeCell cells).getD (.text "unknown"))

/-- Applies a fill decision to one cell. -/
def applyFill (fv : Option Cell) (c : Cell) : Cell :=
  match fv with
  | some v => if c.isMissing then v else c
  | none => c

/-- Imputation step of clean_dataset (lines 126-137): fills every
column according to colFill and accumulates the two counters.  The
counters follow the source exactly: they are incremented by the number
of Missing cells of every column entering the branch, even when a
numeric column has an undefined median and is left unchanged. -/
def imputeStep (t : Table) : Table × ℕ × ℕ :=
  let n := t.names.length
  let fills := (List.range n).map (fun j => colFill (t.dtypes.getD j .object) (colCells j t.rows))
  let rows := t.rows.map (fun r => (List.range n).map (fun j => applyFill (fills.getD j none) (r.getD j .missing)))
  let fn := ((List.range n).map (fun j =>
      if t.dtypes.getD j .object = .numeric then missingCount (colCells j t.rows) else 0)).sum
  let ft := ((List.range n).map (fun j =>
      if t.dtypes.getD j .object = .numeric then 0 else missingCount (colCells j t.rows))).sum
  ({ t with rows := rows }, fn, ft)

/-- Standardisation of one column (lines 139-155 of the source): date
coercion when the name carries a date keyword, lower-casing of object
columns, then numeric coercion of the whole column when strictly more
than 0.7 of the coerced cells are non-missing (on an empty column the
mean is NaN and the comparison is false, so nothing happens).  The
try/except of the source around both coercions swallows any failure;
in the model the elementwise coercions are total. -/
def stdColumn (name : String) (dt : Dtype) (cells : List Cell) : Dtype × List Cell :=
  let s1 : Dtype × List Cell :=
    if dateKeyword name then (.datetime, cells.map toDatetimeCell) else (dt, cells)
  let s2 : Dtype × List Cell :=
    if s1.1 = .object then (s1.1, s1.2.map lowerCell) else s1
  if s2.1 = .numeric then s2
  else
    let coerced := s2.2.map toNumericCell
    if 7 * s2.2.length < 10 * (coerced.countP (fun c => !c.isMissing))
    then (.numeric, coerced) else s2

/-- Standardisation step over the whole table: every column is passed
through stdColumn and the rows are rebuilt from the new columns. -/
def standardizeStep (t : Table) : Table :=
  let n := t.names.length
  let cols := (List.range n).map (fun j =>
    stdColumn (t.names.getD j "") (t.dtypes.getD j .object) (colCells j t.rows))
  { names := t.names
    dtypes := (List.range n).map (fun j => (cols.getD j (.object, [])).1)
    rows := (List.range t.rows.length).map (fun i =>
      (List.range n).map (fun j => ((cols.getD j (.object, [])).2).getD i .missing)) }

/-- Negativity test of a single cell; Missing compares as not
negative, as NaN does under the pandas comparison. -/
def cellNeg : Cell → Bool
  | .num q => decide (q < 0)
  | _ => false

/-- Row flag of the invalid-row step: some cell of a numeric column is
strictly negative. -/
def rowInvalid (dtypes : List Dtype) (r : List Cell) : Bool :=
  (List.range dtypes.length).any (fun j =>
    dtypes.getD j .object = .numeric && cellNeg (r.getD j .missing))

/-- Invalid-row removal step (lines 157-162): drops every flagged row
and counts them.  When no column is numeric the mask is vacuously
false, which the source short-circuits with the numeric_cols check. -/
def removeInvalidStep (t : Table) : Table × ℕ :=
  ({ t with rows := t.rows.filter (fun r => !rowInvalid t.dtypes r) },
    (t.rows.filter (fun r => rowInvalid t.dtypes r)).length)

/-- Column renaming step (line 164): every label through
to_snake_case. -/
def renameStep (t : Table) : Table :=
  { t with names := t.names.map toSnakeCase }

/-- Model of clean_dataset: deduplicate, impute, standardise, remove
invalid rows, rename, and assemble the summary.  rows_after_transform
is initialised to rows_after_cleaning as in the source. -/
def cleanDataset (t : Table) : Table × ProcessingSummary :=
  let rowsBefore := t.rows.length
  let t1 := dedupStep t
  let removedDup := rowsBefore - t1.rows.length
  let imp := imputeStep t1
  let t2 := imp.1
  let t3 := standardizeStep t2
  let inv := removeInvalidStep t3
  let t4 := inv.1
  let t5 := renameStep t4
  (t5,
    { rows_before := rowsBefore
      rows_after_cleaning := t5.rows.length
      rows_after_transform := t5.rows.length
      removed_duplicates := removedDup
      filled_missing_numeric := imp.2.1
      filled_missing_text := imp.2.2
      removed_invalid_rows := inv.2 })

/-- State of the table object passed to clean_dataset after the call
returns.  Line 121 of the source rebinds the local name to
df.drop_duplicates().copy() before any write, so every later update
happens on the copy and the object of the caller is untouched. -/
def cleanInputFinal (t : Table) : Table :=
  t

/-! Transformation stage (apply_transformations of the source, lines
185-239). -/

/-- Price-like column pick.  The source iterates over the Python set
of column names and keeps the first member of {price, unit_price};
set iteration order is unspecified, and the model determinises it by
preferring price.  Every claim under study involves at most one
price-like name, where the two orders agree. -/
def priceName (t : Table) : Option String :=
  if "price" ∈ t.names then some "price"
  else if "unit_price" ∈ t.names then some "unit_price"
  else none

/-- Quantity-like column pick, same determinisation over
{quantity, qty}. -/
def qtyName (t : Table) : Option String :=
  if "quantity" ∈ t.names then some "quantity"
  else if "qty" ∈ t.names then some "qty"
  else none

/-- Value of pd.to_numeric(cell, errors="coerce").fillna(0): the
numeric coercion of the cell, defaulting to 0 on failure. -/
def numDef0 (c : Cell) : ℚ :=
  match toNumericCell c with
  | .num q => q
  | _ => 0

/-- Index of the first column with the given name. -/
def colIdx (t : Table) (n : String) : ℕ :=
  t.names.findIdx (fun m => m = n)

/-- Total value assigned to one row by the derived-column step:
price times quantity when both columns were found, otherwise the
scalar 1. -/
def totalOf (t : Table) (r : List Cell) : Cell :=
  match priceName t, qtyName t with
  | some p, some q =>
      .num (numDef0 (r.getD (colIdx t p) .missing) * numDef0 (r.getD (colIdx t q) .missing))
  | _, _ => .num 1

/-- Derived-column step, the statement df["total"] = ... of the
source: overwrite the total column in place when one exists, else
append a new numeric column at the end. -/
def addTotal (t : Table) : Table :=
  if "total" ∈ t.names then
    { names := t.names
      dtypes := t.dtypes.set (colIdx t "total") .numeric
      rows := t.rows.map (fun r => r.set (colIdx t "total") (totalOf t r)) }
  else
    { names := t.names ++ ["total"]
      dtypes := t.dtypes ++ [.numeric]
      rows := t.rows.map (fun r => r ++ [totalOf t r]) }

/-- State of the table object passed to apply_transformations after
the call returns.  The statement df["total"] = ... on lines 203-207
writes through the reference of the caller, while the later filter and
sort rebind the local name to fresh copies; the object of the caller
therefore ends up with the total column added.  This describes the
calls that return; the label collisions on which the source raises
instead of returning are modelled inside applyTransformations. -/
def transformInputFinal (t : Table) : Table :=
  addTotal t

/-- A label occurring more than once among the column labels.  pandas
allows duplicate labels (rename on lines 164 produces them from
distinct originals such as Price and PRICE); df[label] then yields a
DataFrame instead of a Series and df.groupby(label) a grouper that is
not 1-dimensional. -/
def dupName (names : List String) (n : String) : Bool :=
  decide (2 ≤ names.countP (fun m => m = n))

/-- First uncaught raise of apply_transformations: when both a
price-like and a quantity-like label were found and either label is
duplicated, pd.to_numeric(df[price_col]) on line 203 receives a
DataFrame and raises TypeError before the total column is
assigned. -/
def priceQtyDupRaise (t : Table) : Bool :=
  match priceName t, qtyName t with
  | some p, some q => dupName t.names p || dupName t.names q
  | _, _ => false


/-- Grouping column selection (lines 209-216): first name among
product, item, category present in the table, else the first column;
none only on a table with no columns at all. -/
def groupIdx (t : Table) : Option ℕ :=
  if "product" ∈ t.names then some (colIdx t "product")
  else if "item" ∈ t.names then some (colIdx t "item")
  else if "category" ∈ t.names then some (colIdx t "category")
  else if t.names = [] then none
  else some 0

/-- Uncaught raises of the grouping step, on the table that already
carries the total column: a duplicated grouping label makes
df.groupby on line 219 raise ValueError (Grouper not 1-dimensional),
and a grouping column named like one of the three aggregate outputs
makes reset_index on line 225 raise ValueError (cannot insert, column
already exists). -/
def groupRaise (t : Table) : Bool :=
  match groupIdx t with
  | some g =>
    let gname := t.names.getD g ""
    dupName t.names gname || decide (gname = "total_sales") ||
      decide (gname = "avg_total") || decide (gname = "count_rows")
  | none => false

/-- Key cell of a row under grouping column g. -/
def keyOf (g : ℕ) (r : List Cell) : Cell :=
  r.getD g .missing

/-- Rational payloads of the non-missing cells of column i over the
given rows; pandas sum, mean and count aggregate exactly these. -/
def totalsOf (i : ℕ) (rows : List (List Cell)) : List ℚ :=
  rows.filterMap (fun r => match r.getD i .missing with | .num q => some q | _ => none)

/-- One output row of the aggregation. -/
structure AggRow where
  key : Cell
  total_sales : ℚ
  avg_total : ℚ
  count_rows : ℕ
deriving DecidableEq

/-- Aggregate row of one group: sum, mean and count of the total
column over the rows whose key equals k. -/
def mkAggRow (g i : ℕ) (rows : List (List Cell)) (k : Cell) : AggRow :=
  let grp := rows.filter (fun r => keyOf g r = k)
  let ts := totalsOf i grp
  { key := k
    total_sales := ts.sum
    avg_total := ts.sum / (ts.length : ℚ)
    count_rows := ts.length }

/-- Aggregation of lines 218-226: df.groupby(group_col) with the
pandas defaults, which drop rows whose key is Missing (dropna=True)
and emit one row per remaining distinct key in ascending key order
(sort=True); reset_index puts the key first, modelled by the key
field. -/
def aggregate (g i : ℕ) (rows : List (List Cell)) : List AggRow :=
  let keys := (rows.map (keyOf g)).filter (fun c => !c.isMissing)
  (List.insertionSort (fun a b => cellLe a b = true) (dedupKeepFirst keys)).map
    (mkAggRow g i rows)

/-- Positivity test of the filtering step; Missing compares as not
positive, as NaN does in pandas. -/
def cellPos : Cell → Bool
  | .num q => decide (0 < q)
  | _ => false

/-- Sort key of a row: the rational payload of its total cell.  After
addTotal the total cell is always numeric, so the default on other
constructors is immaterial. -/
def rowTotal (i : ℕ) (r : List Cell) : ℚ :=
  match r.getD i .missing with
  | .num q => q
  | _ => 0

/-- Model of df.sort_values("total", ascending=False) on line 230.
The pandas implementation (nargsort) argsorts ascending and reverses
the indexer for a descending sort; for the array sizes of every
concrete table in this file the numpy introsort kernel is the stable
insertion sort, so the model is the reversal of a stable ascending
sort.  In particular rows with equal totals come out in reversed
input order, not in input order. -/
def sortRowsDesc (i : ℕ) (rows : List (List Cell)) : List (List Cell) :=
  (List.insertionSort (fun r s => rowTotal i r ≤ rowTotal i s) rows).reverse

/-- Model of apply_transformations: add the total column (mutating the
argument object, see transformInputFinal), aggregate, filter the rows
with total > 0, sort descending, and update rows_after_transform.
The result none is the error surface of the function, an uncaught
exception of the source: pd.to_numeric on a duplicated price-like or
quantity-like label (priceQtyDupRaise), df.groupby on a duplicated
grouping label or reset_index on a grouping column named like an
aggregate output (groupRaise), and the fallback df.columns[0] on a
table with no columns (impossible after the total column is added, as
proved below).  The final numeric coercion of total_sales and
avg_total on lines 232-234 is the identity on the rational aggregates
and is not represented. -/
def applyTransformations (t : Table) (s : ProcessingSummary) :
    Option (Table × List AggRow × ProcessingSummary) :=
  if priceQtyDupRaise t = true then none
  else
    let t1 := addTotal t
    if groupRaise t1 = true then none
    else
      match groupIdx t1, t1.names.findIdx? (fun m => m = "total") with
      | some g, some i =>
        let grouped := aggregate g i t1.rows
        let filtered := t1.rows.filter (fun r => cellPos (r.getD i .missing))
        let t2 : Table := { names := t1.names, dtypes := t1.dtypes, rows := sortRowsDesc i filtered }
        some (t2, grouped, { s with rows_after_transform := t2.rows.length })
      | _, _ => none

/-- Composition of the two core stages, as run_full_pipeline chains
them: clean, then transform with the summary of the cleaner. -/
def cleanTransform (t : Table) : Option (Table × List AggRow × ProcessingSummary) :=
  applyTransformations (cleanDataset t).1 (cleanDataset t).2

/-- Modelled from the spec: the tie-breaking rule the spec ascribes to
the textual mode, namely the first mode encountered on ties, by first
appearance order in the column.  Kept separate from modeCell (the
behaviour of the source) so the two can be compared. -/
def specFirstAppearanceMode (cells : List Cell) : Option Cell :=
  match dedupKeepFirst (nonMissing cells) with
  | [] => none
  | c :: cs => some (cs.foldl (fun best c2 =>
      if countCell (nonMissing cells) best < countCell (nonMissing cells) c2 then c2 else best) c)

/-! Concrete tables used by the counterexamples and witnesses. -/

/-- Summary with every field zero, as the CLI path of the source
builds before calling apply_transformations. -/
def sumZero : ProcessingSummary :=
  ⟨0, 0, 0, 0, 0, 0, 0⟩

/-- One textual column whose two non-missing values are equally
frequent, with the later value lexicographically smaller. -/
def tblTieMode : Table :=
  ⟨["c"], [.object], [[.text "b"], [.text "a"], [.missing]]⟩

/-- Two distinct rows, no price or quantity columns, hence equal
totals for both rows. -/
def tblTwoRows : Table :=
  ⟨["name"], [.object], [[.text "r1"], [.text "r2"]]⟩

/-- A product column containing a Missing key. -/
def tblMissingKey : Table :=
  ⟨["product"], [.object], [[.text "x"], [.missing]]⟩

/-- A minimal one-row table. -/
def tblOneProduct : Table :=
  ⟨["product"], [.object], [[.text "x"]]⟩

/-- A table with both a price and a quantity column. -/
def tblPriceQty : Table :=
  ⟨["price", "quantity"], [.numeric, .numeric], [[.num 2, .num 3]]⟩

theorem getD_map_range {α : Type} (f : ℕ → α) (d : α) {j n : ℕ} (hj : j < n) :
    ((List.range n).map f).getD j d = f j := by
  have hj2 : j < (List.map f (List.range n)).length := by simpa using hj
  rw [List.getD_eq_getElem _ _ hj2, List.getElem_map]
  congr 1
  exact List.getElem_range _ _

theorem dedupGo_length_le [DecidableEq α] (seen : List α) (l : List α) :
    (dedupGo seen l).length ≤ l.length := by
  induction l generalizing seen with
  | nil => exact le_rfl
  | cons x xs ih =>
    rw [dedupGo]
    split
    · exact (ih seen).trans (Nat.le_succ _)
    · simpa using ih (x :: seen)

theorem dedupKeepFirst_length_le [DecidableEq α] (l : List α) :
    (dedupKeepFirst l).length ≤ l.length :=
  dedupGo_length_le [] l

theorem mem_of_mem_dedupGo [DecidableEq α] {x : α} {seen l : List α}
    (hx : x ∈ dedupGo seen l) : x ∈ l := by
  induction l generalizing seen with
  | nil => simp [dedupGo] at hx
  | cons y ys ih =>
    rw [dedupGo] at hx
    split at hx
    · exact List.mem_cons_of_mem _ (ih hx)
    · rcases List.mem_cons.1 hx with h | h
      · simp [h]
      · exact List.mem_cons_of_mem _ (ih h)

theorem mem_dedupGo_of_mem [DecidableEq α] {x : α} {seen l : List α}
    (hx : x ∈ l) (hs : x ∉ seen) : x ∈ dedupGo seen l := by
  induction l generalizing seen with
  | nil => simp at hx
  | cons y ys ih =>
    rw [dedupGo]
    by_cases hy : y ∈ seen
    · rw [if_pos hy]
      rcases List.mem_cons.1 hx with h | h
      · exact absurd (h ▸ hy) hs
      · exact ih h hs
    · rw [if_neg hy]
      rcases eq_or_ne x y with he | hne
      · simp [he]
      · rcases List.mem_cons.1 hx with h | h
        · exact absurd h hne
        · exact List.mem_cons_of_mem _ (ih h (by simp [List.mem_cons, hne, hs]))

theorem mem_dedupKeepFirst [DecidableEq α] {x : α} {l : List α} :
    x ∈ dedupKeepFirst l ↔ x ∈ l :=
  ⟨mem_of_mem_dedupGo, fun h => mem_dedupGo_of_mem h (by simp)⟩

theorem dedupKeepFirst_cons (x : α) [DecidableEq α] (l : List α) :
    dedupKeepFirst (x :: l) = x :: dedupGo [x] l := by
  simp [dedupKeepFirst, dedupGo]

theorem strLeB_total (a b : List Char) : strLeB a b = true ∨ strLeB b a = true := by
  induction a generalizing b with
  | nil => simp [strLeB]
  | cons x xs ih =>
    cases b with
    | nil => simp [strLeB]
    | cons y ys =>
      rcases lt_trichotomy x y with h | h | h
      · left
        simp [strLeB, h]
      · subst h
        rcases ih ys with h2 | h2
        · left
          simpa [strLeB, lt_irrefl] using h2
        · right
          simpa [strLeB, lt_irrefl] using h2
      · right
        simp [strLeB, h]

theorem strLeB_trans {a b c : List Char} (h1 : strLeB a b = true)
    (h2 : strLeB b c = true) : strLeB a c = true := by
  induction a generalizing b c with
  | nil => simp [strLeB]
  | cons x xs ih =>
    cases b with
    | nil => simp [strLeB] at h1
    | cons y ys =>
      cases c with
      | nil => simp [strLeB] at h2
      | cons z zs =>
        rw [strLeB] at h1 h2 ⊢
        by_cases hxz : x < z
        · rw [if_pos hxz]
        · rw [if_neg hxz]
          by_cases hzx : z < x
          · rw [if_pos hzx]
            exfalso
            by_cases hxy : x < y
            · by_cases hyz : y < z
              · exact hxz (lt_trans hxy hyz)
              · by_cases hzy : z < y
                · rw [if_neg hyz, if_pos hzy] at h2
                  simp at h2
                · exact hxz (le_antisymm (not_lt.1 hyz) (not_lt.1 hzy) ▸ hxy)
            · by_cases hyx : y < x
              · rw [if_neg hxy, if_pos hyx] at h1
                simp at h1
              · have hexy : x = y := le_antisymm (not_lt.1 hyx) (not_lt.1 hxy)
                subst hexy
                by_cases hxz2 : x < z
                · exact hxz hxz2
                · rw [if_neg hxz2, if_pos hzx] at h2
                  simp at h2
          · rw [if_neg hzx]
            have hexz : x = z := le_antisymm (not_lt.1 hzx) (not_lt.1 hxz)
            subst hexz
            by_cases hxy : x < y
            · rw [if_neg (lt_asymm hxy), if_pos hxy] at h2
              simp at h2
            · by_cases hyx : y < x
              · rw [if_neg hxy, if_pos hyx] at h1
                simp at h1
              · have hexy : x = y := le_antisymm (not_lt.1 hyx) (not_lt.1 hxy)
                subst hexy
                rw [if_neg hxy, if_neg hyx] at h1 h2
                exact ih h1 h2

theorem cellLe_total (a b : Cell) : cellLe a b = true ∨ cellLe b a = true := by
  rcases a with x | x | x | _ <;> rcases b with y | y | y | _ <;>
    simp [cellLe, Cell.rank] <;>
    first
      | exact le_total x y
      | exact strLeB_total x.toList y.toList

theorem cellLe_trans {a b c : Cell} (h1 : cellLe a b = true) (h2 : cellLe b c = true) :
    cellLe a c = true := by
  rcases a with x | x | x | _ <;> rcases b with y | y | y | _ <;> rcases c with z | z | z | _ <;>
    simp_all [cellLe, Cell.rank] <;>
    first
      | exact le_trans h1 h2
      | exact strLeB_trans h1 h2

theorem cellLe_of_not_lt {a b : Cell} (h : cellLt a b = false) : cellLe b a = true := by
  rcases cellLe_total a b with h2 | h2
  · simp [cellLt, h2] at h
    exact h
  · exact h2

theorem cellLe_of_lt {a b : Cell} (h : cellLt a b = true) : cellLe a b = true := by
  simp [cellLt] at h
  exact h.1

theorem modeBest_spec (nm : List Cell) (cs : List Cell) (best : Cell) :
    (modeBest nm cs best = best ∨ modeBest nm cs best ∈ cs) ∧
    countCell nm best ≤ countCell nm (modeBest nm cs best) ∧
    (∀ v ∈ cs, countCell nm v ≤ countCell nm (modeBest nm cs best)) ∧
    (countCell nm best = countCell nm (modeBest nm cs best) →
      cellLe (modeBest nm cs best) best = true) ∧
    (∀ v ∈ cs, countCell nm v = countCell nm (modeBest nm cs best) →
      cellLe (modeBest nm cs best) v = true) := by
  induction cs generalizing best with
  | nil =>
    refine ⟨Or.inl rfl, le_rfl, by simp, ?_, by simp⟩
    intro _
    rcases cellLe_total best best with h | h <;> simpa [modeBest] using h
  | cons c cs2 ih =>
    rw [modeBest]
    split
    · rename_i hcond
      obtain ⟨hmem, hbase, hall, htie0, hties⟩ := ih c
      have hbc : countCell nm best ≤ countCell nm c := by
        rcases hcond with h | h
        · exact le_of_lt h
        · exact le_of_eq h.1.symm
      refine ⟨?_, le_trans hbc hbase, ?_, ?_, ?_⟩
      · rcases hmem with h | h
        · exact Or.inr (by simp [h])
        · exact Or.inr (List.mem_cons_of_mem _ h)
      · intro v hv
        rcases List.mem_cons.1 hv with h | h
        · exact h ▸ hbase
        · exact hall v h
      · intro heq
        rcases hcond with h | h
        · exact absurd heq (by omega)
        · have := htie0 (by omega)
          exact cellLe_trans this (cellLe_of_lt h.2)
      · intro v hv hveq
        rcases List.mem_cons.1 hv with h | h
        · exact h ▸ htie0 (by rw [← hveq, h])
        · exact hties v h hveq
    · rename_i hcond
      push_neg at hcond
      obtain ⟨hmem, hbase, hall, htie0, hties⟩ := ih best
      have hcb : countCell nm c ≤ countCell nm best := hcond.1
      refine ⟨?_, hbase, ?_, htie0, ?_⟩
      · rcases hmem with h | h
        · exact Or.inl h
        · exact Or.inr (List.mem_cons_of_mem _ h)
      · intro v hv
        rcases List.mem_cons.1 hv with h | h
        · exact h ▸ le_trans hcb hbase
        · exact hall v h
      · intro v hv hveq
        rcases List.mem_cons.1 hv with h | h
        · subst h
          have hceq : countCell nm v = countCell nm best := by omega
          have hlt : cellLt v best = false := by
            by_contra hne
            exact (hcond.2 hceq) (by simpa using hne)
          have h1 := cellLe_of_not_lt hlt
          exact cellLe_trans (htie0 (by omega)) h1
        · exact hties v h hveq

theorem modeCell_spec {cells : List Cell} {m : Cell}
    (h : modeCell cells = some m) : IsLeastMode cells m := by
  rw [modeCell] at h
  split at h
  · exact absurd h (by simp)
  · rename_i c cs hdk
    obtain ⟨hmem, hbase, hall, htie0, hties⟩ := modeBest_spec (nonMissing cells) cs c
    rw [Option.some_inj] at h
    subst h
    have hsub : ∀ v, v = c ∨ v ∈ cs → v ∈ nonMissing cells := by
      intro v hv
      have : v ∈ dedupKeepFirst (nonMissing cells) := by
        rw [hdk]
        simpa [List.mem_cons] using hv
      exact mem_dedupKeepFirst.1 this
    refine ⟨?_, ?_, ?_⟩
    · rcases hmem with h | h
      · exact hsub _ (Or.inl h)
      · exact hsub _ (Or.inr h)
    · intro v hv
      have : v ∈ dedupKeepFirst (nonMissing cells) := mem_dedupKeepFirst.2 hv
      rw [hdk] at this
      rcases List.mem_cons.1 this with h | h
      · exact h ▸ hbase
      · exact hall v h
    · intro v hv hveq
      have : v ∈ dedupKeepFirst (nonMissing cells) := mem_dedupKeepFirst.2 hv
      rw [hdk] at this
      rcases List.mem_cons.1 this with h | h
      · exact h ▸ htie0 (by rw [← hveq, h])
      · exact hties v h hveq

theorem modeCell_eq_none_iff {cells : List Cell} :
    modeCell cells = none ↔ nonMissing cells = [] := by
  rw [modeCell]
  constructor
  · intro h
    split at h
    · rename_i hdk
      cases hnm : nonMissing cells with
      | nil => rfl
      | cons c cs =>
        rw [hnm, dedupKeepFirst_cons] at hdk
        exact absurd hdk (by simp)
    · simp at h
  · intro h
    rw [h]
    rfl

theorem length_filterMap_of_isSome {α β : Type} (f : α → Option β) (l : List α)
    (h : ∀ x ∈ l, (f x).isSome = true) : (l.filterMap f).length = l.length := by
  induction l with
  | nil => rfl
  | cons x xs ih =>
    have hx := h x (List.mem_cons_self _ _)
    obtain ⟨y, hy⟩ := Option.isSome_iff_exists.1 hx
    rw [List.filterMap_cons, hy]
    simpa using ih (fun z hz => h z (List.mem_cons_of_mem _ hz))

theorem findIdxAux_isSome (p : α → Bool) {l : List α} {x : α}
    (hx : x ∈ l) (hp : p x = true) : ∀ i : ℕ, (List.findIdx? p l i).isSome = true := by
  induction l with
  | nil => simp at hx
  | cons y ys ih =>
    intro i
    rw [List.findIdx?]
    by_cases hy : p y = true
    · simp [hy]
    · rcases List.mem_cons.1 hx with h | h
      · exact absurd (h ▸ hp) hy
      · simpa [hy] using ih h (i + 1)

theorem findIdx_append_of_not_mem {l : List String} (h : "total" ∉ l) :
    (l ++ ["total"]).findIdx (fun m => m = "total") = l.length := by
  induction l with
  | nil => rfl
  | cons x xs ih =>
    have hx : x ≠ "total" := by
      intro he
      exact h (by simp [he])
    rw [List.cons_append, List.findIdx_cons]
    have hdx : (decide (x = "total")) = false := by simp [hx]
    rw [hdx]
    simp only [cond_false]
    rw [ih (fun hm => h (List.mem_cons_of_mem _ hm))]
    simp

theorem total_mem_addTotal (t : Table) : "total" ∈ (addTotal t).names := by
  rw [addTotal]
  split
  · rename_i h
    exact h
  · simp

theorem addTotal_rows_length (t : Table) :
    (addTotal t).rows.length = t.rows.length := by
  rw [addTotal]
  split <;> simp

theorem sortRowsDesc_length (i : ℕ) (rows : List (List Cell)) :
    (sortRowsDesc i rows).length = rows.length := by
  rw [sortRowsDesc, List.length_reverse, List.length_insertionSort]

theorem standardizeStep_rows_length (t : Table) :
    (standardizeStep t).rows.length = t.rows.length := by
  rw [standardizeStep]
  simp

theorem imputeStep_rows_length (t : Table) :
    (imputeStep t).1.rows.length = t.rows.length := by
  rw [imputeStep]
  simp

/-- Stability kernel: inserting an element of the key class q puts it
in front of the class, so filtering the class commutes with the
insertion up to a cons. -/
theorem filter_orderedInsert_eq {α : Type} (key : α → ℚ) (q : ℚ) (a : α) (l : List α)
    (ha : key a = q) :
    (l.orderedInsert (fun r s => key r ≤ key s) a).filter (fun r => decide (key r = q))
      = a :: l.filter (fun r => decide (key r = q)) := by
  induction l with
  | nil => simp [List.orderedInsert, ha]
  | cons b bs ih =>
    rw [List.orderedInsert]
    split
    · simp [ha]
    · rename_i hab
      have hb : key b ≠ q := by
        intro he
        exact hab (by rw [ha, he])
      rw [List.filter_cons, List.filter_cons]
      simp only [hb, decide_eq_true_eq, if_neg]
      simpa [hb] using ih

theorem filter_orderedInsert_ne {α : Type} (key : α → ℚ) (q : ℚ) (a : α) (l : List α)
    (ha : key a ≠ q) :
    (l.orderedInsert (fun r s => key r ≤ key s) a).filter (fun r => decide (key r = q))
      = l.filter (fun r => decide (key r = q)) := by
  induction l with
  | nil => simp [List.orderedInsert, ha]
  | cons b bs ih =>
    rw [List.orderedInsert]
    split
    · simp [ha]
    · rw [List.filter_cons, List.filter_cons]
      by_cases hb : key b = q
      · simp [hb, ih]
      · simp [hb, ih]

/-- Stability of the ascending insertion sort with respect to a key:
each key class keeps its original order. -/
theorem filter_insertionSort_key {α : Type} (key : α → ℚ) (q : ℚ) (l : List α) :
    (List.insertionSort (fun r s => key r ≤ key s) l).filter (fun r => decide (key r = q))
      = l.filter (fun r => decide (key r = q)) := by
  induction l with
  | nil => rfl
  | cons a as ih =>
    rw [List.insertionSort]
    by_cases ha : key a = q
    · rw [filter_orderedInsert_eq key q a _ ha, ih, List.filter_cons]
      simp [ha]
    · rw [filter_orderedInsert_ne key q a _ ha, ih, List.filter_cons]
      simp [ha]

theorem groupIdx_addTotal_isSome (t : Table) : (groupIdx (addTotal t)).isSome = true := by
  have hne : (addTotal t).names ≠ [] := List.ne_nil_of_mem (total_mem_addTotal t)
  rw [groupIdx]
  split_ifs <;> simp_all

/-- Unfolding of applyTransformations away from the raising labels:
the two partial lookups always succeed and the result has the shape
built on lines 218-236. -/
theorem applyTransformations_eq (t : Table) (s : ProcessingSummary)
    (h1 : priceQtyDupRaise t = false) (h2 : groupRaise (addTotal t) = false) :
    ∃ g i, groupIdx (addTotal t) = some g ∧
      (addTotal t).names.findIdx? (fun m => m = "total") = some i ∧
      applyTransformations t s = some (
        { names := (addTotal t).names
          dtypes := (addTotal t).dtypes
          rows := sortRowsDesc i ((addTotal t).rows.filter (fun r => cellPos (r.getD i .missing))) },
        aggregate g i (addTotal t).rows,
        { s with rows_after_transform :=
            (sortRowsDesc i ((addTotal t).rows.filter (fun r => cellPos (r.getD i .missing)))).length }) := by
  obtain ⟨g, hg⟩ := Option.isSome_iff_exists.1 (groupIdx_addTotal_isSome t)
  obtain ⟨i, hi⟩ := Option.isSome_iff_exists.1
    (findIdxAux_isSome (fun m => decide (m = "total")) (total_mem_addTotal t) (by decide) 0)
  refine ⟨g, i, hg, hi, ?_⟩
  unfold applyTransformations
  simp only [h1, h2, hg, hi, Bool.false_eq_true, if_false]

/-- Case split of applyTransformations: either an uncaught raise
(none) or the explicit result shape. -/
theorem applyTransformations_cases (t : Table) (s : ProcessingSummary) :
    applyTransformations t s = none ∨
    ∃ g i, groupIdx (addTotal t) = some g ∧
      (addTotal t).names.findIdx? (fun m => m = "total") = some i ∧
      applyTransformations t s = some (
        { names := (addTotal t).names
          dtypes := (addTotal t).dtypes
          rows := sortRowsDesc i ((addTotal t).rows.filter (fun r => cellPos (r.getD i .missing))) },
        aggregate g i (addTotal t).rows,
        { s with rows_after_transform :=
            (sortRowsDesc i ((addTotal t).rows.filter (fun r => cellPos (r.getD i .missing)))).length }) := by
  by_cases h1 : priceQtyDupRaise t = true
  · left
    unfold applyTransformations
    simp only [h1, if_true]
  · have h1f : priceQtyDupRaise t = false := by
      simpa using h1
    by_cases h2 : groupRaise (addTotal t) = true
    · left
      unfold applyTransformations
      simp only [h1f, h2, Bool.false_eq_true, if_false, if_true]
    · have h2f : groupRaise (addTotal t) = false := by
        simpa using h2
      exact Or.inr (applyTransformations_eq t s h1f h2f)

/-! Claim theorems. -/

/-- C4, counterexample: on a concrete one-column table the claim that
the Transformer leaves the table value passed to it unchanged (in
particular that it gains no total column) is false: the argument
object of apply_transformations ends the call with a total column
appended. -/
theorem C4_counterexample :
    (transformInputFinal tblOneProduct).names = ["product", "total"] ∧
    transformInputFinal tblOneProduct ≠ tblOneProduct := by
  decide

/-- C4, amended: the Cleaner does not mutate the table passed to it
(it copies right after deduplication), but the Transformer does: the
statement df["total"] = ... writes through the reference of the
caller, so after apply_transformations returns, the table given to it
has gained a total column; only the filtered and sorted outputs are
fresh values. -/
theorem C4_amended (t : Table) (h : "total" ∉ t.names) :
    cleanInputFinal t = t ∧
    (transformInputFinal t).names = t.names ++ ["total"] ∧
    transformInputFinal t ≠ t := by
  refine ⟨rfl, ?_, ?_⟩
  · rw [transformInputFinal, addTotal, if_neg h]
  · intro he
    have hn : (transformInputFinal t).names = t.names := by rw [he]
    rw [transformInputFinal, addTotal, if_neg h] at hn
    have := congrArg List.length hn
    simp at this

/-- C4, witness for the amended theorem at a concrete table. -/
theorem C4_witness :
    cleanInputFinal tblOneProduct = tblOneProduct ∧
    (transformInputFinal tblOneProduct).names = tblOneProduct.names ++ ["total"] ∧
    transformInputFinal tblOneProduct ≠ tblOneProduct :=
  C4_amended tblOneProduct (by decide)

/-- C8: the report counts shrink along the pipeline: after cleaning,
rows_after_cleaning is at most rows_before, and after the
transformation, rows_after_transform is at most rows_after_cleaning
(which the Transformer leaves unchanged). -/
theorem C8_row_counts (t : Table) :
    (cleanDataset t).2.rows_after_cleaning ≤ (cleanDataset t).2.rows_before ∧
    (cleanTransform t).elim True (fun out =>
      out.2.2.rows_after_transform ≤ out.2.2.rows_after_cleaning ∧
      out.2.2.rows_after_cleaning = (cleanDataset t).2.rows_after_cleaning ∧
      out.2.2.rows_before = (cleanDataset t).2.rows_before) := by
  constructor
  · have h1 : (cleanDataset t).2.rows_after_cleaning
        = ((removeInvalidStep (standardizeStep (imputeStep (dedupStep t)).1)).1).rows.length := rfl
    have h2 : (cleanDataset t).2.rows_before = t.rows.length := rfl
    rw [h1, h2]
    have s1 : ((removeInvalidStep (standardizeStep (imputeStep (dedupStep t)).1)).1).rows.length
        ≤ (standardizeStep (imputeStep (dedupStep t)).1).rows.length :=
      List.length_filter_le _ _
    have s2 := standardizeStep_rows_length (imputeStep (dedupStep t)).1
    have s3 := imputeStep_rows_length (dedupStep t)
    have s4 : (dedupStep t).rows.length ≤ t.rows.length := dedupKeepFirst_length_le _
    omega
  · rcases applyTransformations_cases (cleanDataset t).1 (cleanDataset t).2 with
      hnone | ⟨g, i, hg, hi, heq⟩
    · rw [cleanTransform, hnone]
      exact trivial
    · rw [cleanTransform, heq]
      refine ⟨?_, rfl, rfl⟩
      show (sortRowsDesc i ((addTotal (cleanDataset t).1).rows.filter
          (fun r => cellPos (r.getD i .missing)))).length ≤ (cleanDataset t).2.rows_after_cleaning
      have h1 : (cleanDataset t).2.rows_after_cleaning = (cleanDataset t).1.rows.length := rfl
      have s1 := sortRowsDesc_length i
        ((addTotal (cleanDataset t).1).rows.filter (fun r => cellPos (r.getD i .missing)))
      have s2 : ((addTotal (cleanDataset t).1).rows.filter
          (fun r => cellPos (r.getD i .missing))).length
          ≤ (addTotal (cleanDataset t).1).rows.length := List.length_filter_le _ _
      have s3 := addTotal_rows_length (cleanDataset t).1
      omega

/-- C10: the aggregate rows come out ordered by ascending grouping
key: groupby of pandas sorts the group keys (sort=True), modelled by
the ascending insertion sort over the cellLe order on keys. -/
theorem C10_aggregate_sorted (t : Table) (s : ProcessingSummary) :
    (applyTransformations t s).elim True (fun out =>
      List.Pairwise (fun a b : AggRow => cellLe a.key b.key = true) out.2.1) := by
  rcases applyTransformations_cases t s with hnone | ⟨g, i, hg, hi, heq⟩
  · rw [hnone]
    exact trivial
  · rw [heq]
    show List.Pairwise _ (aggregate g i (addTotal t).rows)
    haveI : IsTotal Cell (fun a b => cellLe a b = true) := ⟨cellLe_total⟩
    haveI : IsTrans Cell (fun a b => cellLe a b = true) := ⟨fun a b c => cellLe_trans⟩
    have hs := List.sorted_insertionSort (fun a b : Cell => cellLe a b = true)
      (dedupKeepFirst (((addTotal t).rows.map (keyOf g)).filter (fun c => !c.isMissing)))
    rw [aggregate]
    exact List.Pairwise.map _ (fun a b hab => hab) hs

/-- C2, counterexample: two rows with equal totals (both 1, no price
or quantity column) leave the descending sort in reversed input
order, so the claim that ties retain their pre-sort relative order is
false on the code. -/
theorem C2_counterexample :
    (applyTransformations tblTwoRows sumZero).map (fun x => x.1.rows)
      = some [[.text "r2", .num 1], [.text "r1", .num 1]] ∧
    rowTotal 1 [Cell.text "r1", .num 1] = rowTotal 1 [Cell.text "r2", .num 1] ∧
    [[Cell.text "r2", Cell.num 1], [Cell.text "r1", Cell.num 1]]
      ≠ [[Cell.text "r1", Cell.num 1], [Cell.text "r2", Cell.num 1]] := by
  decide

/-- C2, amended: the sorting step orders the filtered rows by total
in descending order and permutes the rows, but it is not stable: the
implementation reverses a stable ascending sort, so the rows of one
total class come out in reversed pre-sort order. -/
theorem C2_amended (i : ℕ) (rows : List (List Cell)) :
    List.Pairwise (fun r s2 => rowTotal i s2 ≤ rowTotal i r) (sortRowsDesc i rows) ∧
    (sortRowsDesc i rows).Perm rows ∧
    ∀ q : ℚ, (sortRowsDesc i rows).filter (fun r => decide (rowTotal i r = q))
        = (rows.filter (fun r => decide (rowTotal i r = q))).reverse := by
  refine ⟨?_, ?_, ?_⟩
  · haveI : IsTotal (List Cell) (fun r s2 => rowTotal i r ≤ rowTotal i s2) :=
      ⟨fun a b => le_total _ _⟩
    haveI : IsTrans (List Cell) (fun r s2 => rowTotal i r ≤ rowTotal i s2) :=
      ⟨fun a b c h1 h2 => le_trans h1 h2⟩
    have hs := List.sorted_insertionSort (fun r s2 => rowTotal i r ≤ rowTotal i s2) rows
    rw [sortRowsDesc]
    exact (List.pairwise_reverse).2 hs
  · rw [sortRowsDesc]
    exact (List.reverse_perm _).trans (List.perm_insertionSort _ _)
  · intro q
    rw [sortRowsDesc, List.filter_reverse, filter_insertionSort_key (rowTotal i) q rows]

theorem imputeStep_colCells (t : Table) {j : ℕ} (hj : j < t.names.length) :
    colCells j (imputeStep t).1.rows
      = (colCells j t.rows).map
          (applyFill (colFill (t.dtypes.getD j .object) (colCells j t.rows))) := by
  simp only [imputeStep, colCells, List.map_map]
  apply List.map_congr_left
  intro r _
  simp only [Function.comp]
  rw [getD_map_range _ _ hj, getD_map_range _ _ hj]

/-- C1, counterexample: in the column [b, a, Missing] the values a
and b are equally frequent and b appears first, so the claimed
first-appearance tie-break would fill the Missing cell with b; the
code fills it with a, because pandas mode() returns the tied values
sorted ascending and iloc[0] takes the least. -/
theorem C1_counterexample :
    (cleanDataset tblTieMode).1.rows = [[.text "b"], [.text "a"], [.text "a"]] ∧
    specFirstAppearanceMode [.text "b", .text "a", .missing] = some (.text "b") ∧
    modeCell [.text "b", .text "a", .missing] = some (.text "a") ∧
    Cell.text "a" ≠ Cell.text "b" := by
  decide

/-- C1, amended: for every non-numeric column with at least one
Missing cell, the imputation step replaces every Missing cell with
the most frequent non-missing value, breaking ties between equally
frequent values by the least value in the ascending cell order (the
first element of the sorted pandas mode); when the column has no
non-missing value every Missing cell becomes the literal unknown;
filled_missing_text accumulates the Missing counts of exactly the
non-numeric columns. -/
theorem C1_amended (t : Table) (j : ℕ) (hj : j < t.names.length)
    (hdt : t.dtypes.getD j .object ≠ .numeric)
    (hmiss : missingCount (colCells j t.rows) ≠ 0) :
    (∀ m, modeCell (colCells j t.rows) = some m →
        IsLeastMode (colCells j t.rows) m ∧
        colCells j (imputeStep t).1.rows
          = (colCells j t.rows).map (fun c => if c.isMissing then m else c)) ∧
    (modeCell (colCells j t.rows) = none →
        colCells j (imputeStep t).1.rows
          = (colCells j t.rows).map (fun c => if c.isMissing then Cell.text "unknown" else c)) ∧
    (imputeStep t).2.2 = ((List.range t.names.length).map (fun j2 =>
        if t.dtypes.getD j2 .object = .numeric then 0
        else missingCount (colCells j2 t.rows))).sum := by
  refine ⟨?_, ?_, rfl⟩
  · intro m hm
    refine ⟨modeCell_spec hm, ?_⟩
    rw [imputeStep_colCells t hj, colFill, if_neg hmiss, if_neg hdt, hm]
    rfl
  · intro hm
    rw [imputeStep_colCells t hj, colFill, if_neg hmiss, if_neg hdt, hm]
    rfl

/-- C1, witness: the amended theorem applied to the concrete tie
column, whose mode is the letter a. -/
theorem C1_witness :
    colCells 0 (imputeStep tblTieMode).1.rows
      = (colCells 0 tblTieMode.rows).map
          (fun c => if c.isMissing then Cell.text "a" else c) :=
  ((C1_amended tblTieMode 0 (by decide) (by decide) (by decide)).1
    (Cell.text "a") (by decide)).2

theorem findIdxAux_spec (p : α → Bool) : ∀ (l : List α) (k i : ℕ),
    List.findIdx? p l k = some i → k ≤ i ∧ i - k < l.length ∧ l.findIdx p = i - k := by
  intro l
  induction l with
  | nil => intro k i h; simp [List.findIdx?] at h
  | cons x xs ih =>
    intro k i h
    rw [List.findIdx?] at h
    by_cases hx : p x = true
    · rw [if_pos hx] at h
      rw [Option.some_inj] at h
      subst h
      refine ⟨le_rfl, by simp, ?_⟩
      rw [List.findIdx_cons, hx]
      simp
    · rw [if_neg hx] at h
      obtain ⟨h1, h2, h3⟩ := ih (k + 1) i h
      have hx2 : p x = false := by
        cases hpx : p x
        · rfl
        · exact absurd hpx hx
      refine ⟨by omega, ?_, ?_⟩
      · simp only [List.length_cons]
        omega
      · rw [List.findIdx_cons, hx2]
        simp only [cond_false]
        omega

theorem findIdx?_spec (p : α → Bool) {l : List α} {i : ℕ}
    (h : List.findIdx? p l = some i) : l.findIdx p = i ∧ i < l.length := by
  obtain ⟨h1, h2, h3⟩ := findIdxAux_spec p l 0 i h
  simpa using ⟨h3, h2⟩

/-- Each row of the table leaving the derived-column step carries a
numeric cell in the total column. -/
theorem addTotal_total_isNum (t : Table) (hwf : t.WF) {i : ℕ}
    (hi : (addTotal t).names.findIdx? (fun m => m = "total") = some i) :
    ∀ r ∈ (addTotal t).rows, ∃ q : ℚ, r.getD i .missing = .num q := by
  have htot : ∀ r : List Cell, ∃ q : ℚ, totalOf t r = .num q := by
    intro r
    rw [totalOf]
    rcases priceName t with _ | p <;> rcases qtyName t with _ | q
    · exact ⟨1, rfl⟩
    · exact ⟨1, rfl⟩
    · exact ⟨1, rfl⟩
    · exact ⟨_, rfl⟩
  obtain ⟨hfi, hlen⟩ := findIdx?_spec _ hi
  intro r2 hr2
  by_cases hmem : "total" ∈ t.names
  · rw [addTotal, if_pos hmem] at hr2 hfi hlen
    dsimp only at hr2 hfi hlen
    obtain ⟨r, hr, hre⟩ := List.mem_map.1 hr2
    subst hre
    have hiv : i = colIdx t "total" := by
      rw [colIdx, hfi]
    have hil : i < r.length := by
      rw [hwf.2 r hr]
      simpa using hlen
    obtain ⟨q, hq⟩ := htot r
    refine ⟨q, ?_⟩
    rw [hiv] at hil ⊢
    rw [List.getD_eq_getElem _ _ (by simpa using hil)]
    rw [List.getElem_set_self]
    exact hq
  · rw [addTotal, if_neg hmem] at hr2 hfi hlen
    dsimp only at hr2 hfi hlen
    obtain ⟨r, hr, hre⟩ := List.mem_map.1 hr2
    subst hre
    have hiv : i = t.names.length := by
      rw [← hfi, findIdx_append_of_not_mem hmem]
    obtain ⟨q, hq⟩ := htot r
    refine ⟨q, ?_⟩
    rw [hiv, ← hwf.2 r hr, List.getD_append_right _ _ _ _ le_rfl]
    simpa using hq

/-- C3, counterexample: a product column [x, Missing] yields exactly
one aggregate row, keyed x and counting one row; the Missing key gets
no aggregate row, because df.groupby drops NaN keys (dropna=True by
default), contrary to the claim that Missing forms its own group. -/
theorem C3_counterexample :
    (applyTransformations tblMissingKey sumZero).map (fun x => x.2.1.map (fun a => a.key))
      = some [.text "x"] ∧
    (applyTransformations tblMissingKey sumZero).map (fun x => x.2.1.map (fun a => a.count_rows))
      = some [1] ∧
    Cell.text "x" ≠ Cell.missing := by
  decide

/-- C3, amended: the aggregation groups rows by equality of the
grouping key restricted to non-Missing keys; rows with a Missing key
are dropped and produce no aggregate row.  Every aggregate row has a
non-Missing key, total_sales the sum of the total cells of its group,
count_rows the size of its group, and avg_total the quotient of the
two; a non-Missing key has an aggregate row exactly when some row
carries it. -/
theorem C3_amended (t : Table) (s : ProcessingSummary) (hwf : t.WF) :
    (applyTransformations t s).elim True (fun out =>
      ∃ g i, groupIdx (addTotal t) = some g ∧
        (addTotal t).names.findIdx? (fun m => m = "total") = some i ∧
        (∀ a ∈ out.2.1,
          a.key.isMissing = false ∧
          a.total_sales
            = (totalsOf i ((addTotal t).rows.filter (fun r => keyOf g r = a.key))).sum ∧
          a.count_rows = ((addTotal t).rows.filter (fun r => keyOf g r = a.key)).length ∧
          a.avg_total = a.total_sales / (a.count_rows : ℚ)) ∧
        (∀ k : Cell, k.isMissing = false →
          ((∃ r ∈ (addTotal t).rows, keyOf g r = k) ↔ ∃ a ∈ out.2.1, a.key = k))) := by
  refine (applyTransformations_cases t s).elim (fun hnone => by rw [hnone]; exact trivial) ?_
  rintro ⟨g, i, hg, hi, heq⟩
  rw [heq]
  show ∃ g2 i2, _
  refine ⟨g, i, hg, hi, ?_, ?_⟩
  · intro a ha
    have ha2 : a ∈ aggregate g i (addTotal t).rows := ha
    rw [aggregate] at ha2
    obtain ⟨k, hk, hak⟩ := List.mem_map.1 ha2
    rw [List.mem_insertionSort] at hk
    have hknm : k ∈ ((addTotal t).rows.map (keyOf g)).filter (fun c => !c.isMissing) :=
      mem_dedupKeepFirst.1 hk
    have hkm : k.isMissing = false := by
      have := (List.mem_filter.1 hknm).2
      simpa using this
    subst hak
    refine ⟨hkm, rfl, ?_, rfl⟩
    show (totalsOf i ((addTotal t).rows.filter (fun r => keyOf g r = k))).length = _
    rw [totalsOf]
    apply length_filterMap_of_isSome
    intro r hr
    obtain ⟨q, hq⟩ := addTotal_total_isNum t hwf hi r (List.mem_filter.1 hr).1
    rw [hq]
    rfl
  · intro k hkm
    constructor
    · intro ⟨r, hr, hkr⟩
      have hknm : k ∈ ((addTotal t).rows.map (keyOf g)).filter (fun c => !c.isMissing) := by
        rw [List.mem_filter]
        exact ⟨List.mem_map.2 ⟨r, hr, hkr⟩, by simp [hkm]⟩
      refine ⟨mkAggRow g i (addTotal t).rows k, ?_, rfl⟩
      show _ ∈ aggregate g i (addTotal t).rows
      rw [aggregate]
      exact List.mem_map.2 ⟨k, (List.mem_insertionSort _).2 (mem_dedupKeepFirst.2 hknm), rfl⟩
    · intro ⟨a, ha, hak⟩
      have ha2 : a ∈ aggregate g i (addTotal t).rows := ha
      rw [aggregate] at ha2
      obtain ⟨k2, hk2, hak2⟩ := List.mem_map.1 ha2
      have hkk : k2 = k := by
        rw [← hak, ← hak2]
        rfl
      subst hkk
      rw [List.mem_insertionSort] at hk2
      have hknm := mem_dedupKeepFirst.1 hk2
      obtain ⟨hmap, _⟩ := List.mem_filter.1 hknm
      obtain ⟨r, hr, hkr⟩ := List.mem_map.1 hmap
      exact ⟨r, hr, hkr⟩

/-- C3, witness for the amended theorem at the concrete table with a
Missing grouping key. -/
theorem C3_witness :
    (applyTransformations tblMissingKey sumZero).elim True (fun out =>
      ∃ g i, groupIdx (addTotal tblMissingKey) = some g ∧
        (addTotal tblMissingKey).names.findIdx? (fun m => m = "total") = some i ∧
        (∀ a ∈ out.2.1,
          a.key.isMissing = false ∧
          a.total_sales
            = (totalsOf i ((addTotal tblMissingKey).rows.filter
                (fun r => keyOf g r = a.key))).sum ∧
          a.count_rows = ((addTotal tblMissingKey).rows.filter
            (fun r => keyOf g r = a.key)).length ∧
          a.avg_total = a.total_sales / (a.count_rows : ℚ)) ∧
        (∀ k : Cell, k.isMissing = false →
          ((∃ r ∈ (addTotal tblMissingKey).rows, keyOf g r = k)
            ↔ ∃ a ∈ out.2.1, a.key = k))) :=
  C3_amended tblMissingKey sumZero (by decide)

/-- Cells of the total column of the table leaving the derived-column
step: the per-row value totalOf. -/
theorem colCells_total_addTotal (t : Table) (hwf : t.WF) :
    colCells (colIdx (addTotal t) "total") (addTotal t).rows = t.rows.map (totalOf t) := by
  by_cases hmem : "total" ∈ t.names
  · have hti : t.names.findIdx (fun m => decide (m = "total")) < t.names.length :=
      List.findIdx_lt_length.2 ⟨"total", hmem, by decide⟩
    simp only [addTotal, if_pos hmem, colIdx, colCells, List.map_map]
    apply List.map_congr_left
    intro r hr
    have hl : t.names.findIdx (fun m => decide (m = "total"))
        < (r.set (t.names.findIdx (fun m => decide (m = "total"))) (totalOf t r)).length := by
      rw [List.length_set, hwf.2 r hr]
      exact hti
    show (r.set (t.names.findIdx (fun m => decide (m = "total"))) (totalOf t r)).getD
        (t.names.findIdx (fun m => decide (m = "total"))) .missing = _
    rw [List.getD_eq_getElem _ _ hl, List.getElem_set_self]
  · simp only [addTotal, if_neg hmem, colIdx, colCells, List.map_map]
    rw [findIdx_append_of_not_mem hmem]
    apply List.map_congr_left
    intro r hr
    show (r ++ [totalOf t r]).getD t.names.length .missing = _
    rw [← hwf.2 r hr, List.getD_append_right _ _ _ _ le_rfl]
    simp

/-- C7: when both a price-like and a quantity-like column are present
every total cell is the product of the numeric coercions (default 0)
of the price and quantity cells of its row; when either is absent
every total cell is the scalar 1; the picks succeed exactly when a
column named price or unit_price (respectively quantity or qty) is
present. -/
theorem C7_derived_total (t : Table) (hwf : t.WF) :
    (∀ p q, priceName t = some p → qtyName t = some q →
      colCells (colIdx (addTotal t) "total") (addTotal t).rows
        = t.rows.map (fun r =>
            Cell.num (numDef0 (r.getD (colIdx t p) .missing)
              * numDef0 (r.getD (colIdx t q) .missing)))) ∧
    ((priceName t = none ∨ qtyName t = none) →
      colCells (colIdx (addTotal t) "total") (addTotal t).rows
        = t.rows.map (fun _ => Cell.num 1)) ∧
    ((priceName t).isSome = true ↔ ("price" ∈ t.names ∨ "unit_price" ∈ t.names)) ∧
    ((qtyName t).isSome = true ↔ ("quantity" ∈ t.names ∨ "qty" ∈ t.names)) := by
  refine ⟨?_, ?_, ?_, ?_⟩
  · intro p q hp hq
    rw [colCells_total_addTotal t hwf]
    apply List.map_congr_left
    intro r _
    rw [totalOf, hp, hq]
  · intro h
    rw [colCells_total_addTotal t hwf]
    apply List.map_congr_left
    intro r _
    rcases hp : priceName t with _ | p <;> rcases hq : qtyName t with _ | q <;>
      rw [totalOf, hp, hq]
    rcases h with h | h
    · exact absurd (hp ▸ h) (by simp)
    · exact absurd (hq ▸ h) (by simp)
  · rw [priceName]
    split_ifs <;> simp_all
  · rw [qtyName]
    split_ifs <;> simp_all

/-- C7, witness: the theorem applied to a concrete table with both a
price and a quantity column. -/
theorem C7_witness :
    Table.WF tblPriceQty ∧
    ((priceName tblPriceQty).isSome = true
      ↔ ("price" ∈ tblPriceQty.names ∨ "unit_price" ∈ tblPriceQty.names)) :=
  ⟨by decide, (C7_derived_total tblPriceQty (by decide)).2.2.1⟩

theorem charOfNat_toNat {n : ℕ} (h : n < 55296) : (Char.ofNat n).toNat = n := by
  have hv : n.isValidChar := Or.inl h
  simp [Char.ofNat, hv, Char.ofNatAux, Char.toNat, UInt32.toNat, BitVec.toNat_ofNatLt]

theorem toLower_toNat_of_upper {c : Char} (h1 : 65 ≤ c.toNat) (h2 : c.toNat ≤ 90) :
    (Char.toLower c).toNat = c.toNat + 32 := by
  rw [Char.toLower]
  simp only [ge_iff_le, h1, h2, and_self, if_pos]
  exact charOfNat_toNat (by omega)

theorem toLower_eq_of_not_upper {c : Char} (h : ¬ (65 ≤ c.toNat ∧ c.toNat ≤ 90)) :
    Char.toLower c = c := by
  rw [Char.toLower]
  simp [h]

theorem isDigit_iff_toNat {c : Char} : c.isDigit = true ↔ 48 ≤ c.toNat ∧ c.toNat ≤ 57 := by
  rw [Char.isDigit]
  simp [UInt32.le_def]
  exact Iff.rfl

theorem le_char_iff_toNat {a b : Char} : a ≤ b ↔ a.toNat ≤ b.toNat :=
  Char.le_def

theorem mem_squashGo {p : Char → Bool} {rep x : Char} :
    ∀ {b : Bool} {l : List Char}, x ∈ squashGo p rep b l → x = rep ∨ x ∈ l := by
  intro b l
  induction l generalizing b with
  | nil => intro h; simp [squashGo] at h
  | cons c cs ih =>
    intro h
    rw [squashGo] at h
    split_ifs at h with h1 h2
    · rcases ih h with h3 | h3
      · exact Or.inl h3
      · exact Or.inr (List.mem_cons_of_mem _ h3)
    · rcases List.mem_cons.1 h with h3 | h3
      · exact Or.inl h3
      · rcases ih h3 with h4 | h4
        · exact Or.inl h4
        · exact Or.inr (List.mem_cons_of_mem _ h4)
    · rcases List.mem_cons.1 h with h3 | h3
      · exact Or.inr (by simp [h3])
      · rcases ih h3 with h4 | h4
        · exact Or.inl h4
        · exact Or.inr (List.mem_cons_of_mem _ h4)

theorem toLower_wordChar {c : Char} (h : isWordChar c = true) :
    Char.toLower c = '_' ∨ (Char.toLower c).isDigit = true ∨
      ('a' ≤ Char.toLower c ∧ Char.toLower c ≤ 'z') := by
  rw [isWordChar, Char.isAlpha, Char.isUpper, Char.isLower] at h
  simp only [Bool.or_eq_true, decide_eq_true_eq, Bool.and_eq_true] at h
  rcases h with (hd | ⟨h1, h2⟩ | ⟨h1, h2⟩) | hu
  · have hb := isDigit_iff_toNat.1 hd
    have hne : ¬ (65 ≤ c.toNat ∧ c.toNat ≤ 90) := by omega
    rw [toLower_eq_of_not_upper hne]
    exact Or.inr (Or.inl hd)
  · have h1n : 65 ≤ c.toNat := h1
    have h2n : c.toNat ≤ 90 := h2
    have ht := toLower_toNat_of_upper h1n h2n
    refine Or.inr (Or.inr ⟨?_, ?_⟩)
    · rw [le_char_iff_toNat, ht]
      show 97 ≤ c.toNat + 32
      omega
    · rw [le_char_iff_toNat, ht]
      show c.toNat + 32 ≤ 122
      omega
  · have h1n : 97 ≤ c.toNat := h1
    have h2n : c.toNat ≤ 122 := h2
    have hne : ¬ (65 ≤ c.toNat ∧ c.toNat ≤ 90) := by omega
    rw [toLower_eq_of_not_upper hne]
    refine Or.inr (Or.inr ⟨?_, ?_⟩)
    · rw [le_char_iff_toNat]
      exact h1n
    · rw [le_char_iff_toNat]
      exact h2n
  · subst hu
    exact Or.inl (by decide)

theorem toSnakeCase_charset {s : String} {c : Char}
    (hc : c ∈ (toSnakeCase s).toList) :
    c = '_' ∨ c.isDigit = true ∨ ('a' ≤ c ∧ c ≤ 'z') := by
  rw [toSnakeCase] at hc
  simp only [String.toList] at hc
  obtain ⟨d, hd, hdc⟩ := List.mem_map.1 hc
  subst hdc
  rcases mem_squashGo hd with h | h
  · subst h
    exact Or.inl (by decide)
  · have hw : isWordChar d = true := (List.mem_filter.1 h).2
    exact toLower_wordChar hw

/-- C9: the column-name normaliser maps the label of the spec example
to unit_price, and every character of any output is an underscore, a
digit, or a lower-case letter, witnessing the strip of characters
outside the word class and the final lower-casing. -/
theorem C9_to_snake_case (s : String) (c : Char) (hc : c ∈ (toSnakeCase s).toList) :
    toSnakeCase "Unit  Price!" = "unit_price" ∧
    (c = '_' ∨ c.isDigit = true ∨ ('a' ≤ c ∧ c ≤ 'z')) :=
  ⟨by decide, toSnakeCase_charset hc⟩

/-- C9, witness at the example string and one of its characters. -/
theorem C9_witness :
    toSnakeCase "Unit  Price!" = "unit_price" ∧
    ('u' = '_' ∨ ('u' : Char).isDigit = true ∨ ('a' ≤ ('u' : Char) ∧ ('u' : Char) ≤ 'z')) :=
  C9_to_snake_case "Unit  Price!" 'u' (by decide)

/-! Idempotence of the name normaliser, needed for the amended second-run
claim: every character the normaliser can output is left fixed by each of
its five phases, so a second pass is the identity. -/

end DataAI
